import Mathlib

/-!
Verification of the quadtree splitting core of `split_geo.py`.

Embedding conventions:

* Coordinates are modelled as exact rationals (`ℚ`); the source uses Python
  floats.  All operations the tree performs on coordinates are midpoint
  computation `(x + y) / 2` and order comparison `≥`, which are exact here.
* The opaque XML payload (`ElementTree.Element`) carried by each point is
  modelled as an opaque natural-number identifier; the tree never inspects it.
* A `QTNode` in the source is a Python object with an `is_leaf` flag, a
  `members` list, and four child pointers that are `None` exactly while
  `is_leaf` is true.  We embed it as a two-constructor inductive:
  `leaf` (members list, children absent) and `node` (four children, members
  cleared — `split` ends with `self.members.clear()`).
* The source caches `mid_lat`/`mid_lon` as fields.  They are read only on
  internal nodes, and a node becomes internal only through `split`, which
  (re)assigns them as `(max+min)/2`; the embedding therefore writes
  `(max+min)/2` at every use site instead of storing the fields.
* The mutating methods `add`/`add_2_child`/`split` form a recursion that does
  not terminate on all inputs (coincident points can force endless splitting),
  so insertion is embedded with an explicit fuel parameter: `addF fuel t p`
  returns `none` when `fuel` recursion levels are not enough.  A run of the
  Python code terminates exactly when some fuel suffices.
* `write_leaves` writes one file per non-empty leaf; we model the emitted
  output as the list of `(file_name, members)` pairs, with the `out_dir`
  prefix and the `".osm"` suffix (identical decorations on every unit)
  dropped.
-/

/-- The point record of the source (`OsmNodeWrapper`): latitude, longitude and
an opaque payload (the XML element, modelled as an identifier). -/
structure OsmNodeWrapper where
  lat : ℚ
  lon : ℚ
  node : ℕ
deriving DecidableEq, Repr

/-- A quad tree node (`QTNode`): either a leaf holding member points, or an
internal node holding four children (lower-left, lower-right, upper-left,
upper-right).  Every node stores its bounding rectangle and the shared
`max_members` capacity. -/
inductive QTNode where
  | leaf (minLat maxLat minLon maxLon : ℚ) (maxMembers : ℤ) (members : List OsmNodeWrapper)
  | node (minLat maxLat minLon maxLon : ℚ) (maxMembers : ℤ)
      (lowerLeft lowerRight upperLeft upperRight : QTNode)
deriving DecidableEq, Repr

/-- `QTNode.__init__`: a fresh node is a leaf with empty members.  Note the
source performs no validation of `max_members` whatsoever. -/
def QTNode.mkFresh (minLat maxLat minLon maxLon : ℚ) (maxMembers : ℤ) : QTNode :=
  QTNode.leaf minLat maxLat minLon maxLon maxMembers []

/-- The four children of an internal node, in the field order
(lower_left, lower_right, upper_left, upper_right). -/
abbrev Children := QTNode × QTNode × QTNode × QTNode

/-- `QTNode.add_2_child`: route a point to the child selected by comparing its
coordinates with the node's midpoints (`>=` sends a point up / right), and add
it there.  The recursive call to `QTNode.add` on the child is abstracted as
the function argument `addC` (instantiated with `addF n` below), which breaks
the method cycle `add → split → add_2_child → add`. -/
def add2With (addC : QTNode → OsmNodeWrapper → Option QTNode)
    (midLat midLon : ℚ) (ll lr ul ur : QTNode) (p : OsmNodeWrapper) :
    Option Children :=
  if p.lat ≥ midLat then
    if p.lon ≥ midLon then
      (addC ur p).map (fun x => (ll, lr, ul, x))
    else
      (addC ul p).map (fun x => (ll, lr, x, ur))
  else
    if p.lon ≥ midLon then
      (addC lr p).map (fun x => (ll, x, ul, ur))
    else
      (addC ll p).map (fun x => (x, lr, ul, ur))

/-- The `for node in self.members: self.add_2_child(node)` loop of
`QTNode.split`, threading the four children through `add_2_with`. -/
def redistWith (addC : QTNode → OsmNodeWrapper → Option QTNode)
    (midLat midLon : ℚ) : List OsmNodeWrapper → Children → Option Children
  | [], cs => some cs
  | p :: rest, cs =>
    match add2With addC midLat midLon cs.1 cs.2.1 cs.2.2.1 cs.2.2.2 p with
    | none => none
    | some cs2 => redistWith addC midLat midLon rest cs2

/-- `QTNode.split`: create the four quadrant children (each a fresh leaf with
the parent's capacity and a quarter of its rectangle), set the midpoints
(`(max+min)/2`, as written in the source), redistribute every buffered member
through `add_2_child`, clear the member list, and become internal. -/
def splitWith (addC : QTNode → OsmNodeWrapper → Option QTNode)
    (a b c d : ℚ) (m : ℤ) (ms : List OsmNodeWrapper) : Option QTNode :=
  (redistWith addC ((b + a) / 2) ((d + c) / 2) ms
      (QTNode.leaf a ((b + a) / 2) c ((c + d) / 2) m [],
       QTNode.leaf a ((b + a) / 2) ((c + d) / 2) d m [],
       QTNode.leaf ((a + b) / 2) b c ((c + d) / 2) m [],
       QTNode.leaf ((a + b) / 2) b ((c + d) / 2) d m [])).map
    (fun cs => QTNode.node a b c d m cs.1 cs.2.1 cs.2.2.1 cs.2.2.2)

/-- `QTNode.add` with fuel: on a leaf, append the point and split when the
member count exceeds `max_members`; on an internal node, delegate to
`add_2_child`.  `none` means the given fuel was insufficient — the source, run
on the same input, recurses at least `fuel` levels deep. -/
def addF : ℕ → QTNode → OsmNodeWrapper → Option QTNode
  | 0, _, _ => none
  | n + 1, QTNode.leaf a b c d m ms, p =>
    if ((ms ++ [p]).length : ℤ) > m then
      splitWith (addF n) a b c d m (ms ++ [p])
    else
      some (QTNode.leaf a b c d m (ms ++ [p]))
  | n + 1, QTNode.node a b c d m ll lr ul ur, p =>
    (add2With (addF n) ((b + a) / 2) ((d + c) / 2) ll lr ul ur p).map
      (fun cs => QTNode.node a b c d m cs.1 cs.2.1 cs.2.2.1 cs.2.2.2)

/-- The insertion loop of `main`: add each point of the input sequence in
order, every call budgeted with the same fuel. -/
def addAllF (fuel : ℕ) (t : QTNode) (ps : List OsmNodeWrapper) : Option QTNode :=
  ps.foldlM (fun acc p => addF fuel acc p) t

/-- A quadrant choice, as encoded in the file names emitted by
`write_leaves`. -/
inductive Quad where
  | SW | SE | NW | NE
deriving DecidableEq, Repr

/-- The directional code appended to the file name for each quadrant. -/
def quadCode : Quad → String
  | .SW => "SW"
  | .SE => "SE"
  | .NW => "NW"
  | .NE => "NE"

/-- `QTNode.write_leaves`: emit `(file_name, members)` for every non-empty
leaf; internal nodes recurse over their children in the order
SW, SE, NW, NE, each with the corresponding code appended to the name. -/
def writeLeaves : QTNode → String → List (String × List OsmNodeWrapper)
  | QTNode.leaf _ _ _ _ _ ms, name =>
    if ms = [] then [] else [(name, ms)]
  | QTNode.node _ _ _ _ _ ll lr ul ur, name =>
    writeLeaves ll (name ++ "SW") ++ writeLeaves lr (name ++ "SE") ++
      writeLeaves ul (name ++ "NW") ++ writeLeaves ur (name ++ "NE")

/-- Modelled from the spec: `enumerateLeaves` with the path kept as the
ordered sequence of quadrant choices from the root, used to compare the
source's string-built identifiers against the abstract paths. -/
def enumLeaves : QTNode → List Quad → List (List Quad × List OsmNodeWrapper)
  | QTNode.leaf _ _ _ _ _ ms, path =>
    if ms = [] then [] else [(path, ms)]
  | QTNode.node _ _ _ _ _ ll lr ul ur, path =>
    enumLeaves ll (path ++ [Quad.SW]) ++ enumLeaves lr (path ++ [Quad.SE]) ++
      enumLeaves ul (path ++ [Quad.NW]) ++ enumLeaves ur (path ++ [Quad.NE])

/-- The identifier derived from a quadrant path: concatenation of the
directional codes. -/
def pathCode : List Quad → String
  | [] => ""
  | q :: qs => quadCode q ++ pathCode qs

/-- `QTNode.write_leaves` in state-passing form: the traversal returns the
tree it leaves behind together with the emitted units.  The source method
reads `is_leaf`, `members` and the four child fields and assigns to none of
them, so each child is returned as its own recursive traversal returns it. -/
def writeLeavesSt : QTNode → String → QTNode × List (String × List OsmNodeWrapper)
  | t@(QTNode.leaf _ _ _ _ _ ms), name =>
    (t, if ms = [] then [] else [(name, ms)])
  | QTNode.node a b c d m ll lr ul ur, name =>
    let rll := writeLeavesSt ll (name ++ "SW")
    let rlr := writeLeavesSt lr (name ++ "SE")
    let rul := writeLeavesSt ul (name ++ "NW")
    let rur := writeLeavesSt ur (name ++ "NE")
    (QTNode.node a b c d m rll.1 rlr.1 rul.1 rur.1,
      rll.2 ++ rlr.2 ++ rul.2 ++ rur.2)

/-- Modelled from the spec: the routing rule — upper half iff
`latitude ≥ midLat`, right half iff `longitude ≥ midLon`, combined into one
of the four quadrants. -/
def routeSpec (midLat midLon : ℚ) (p : OsmNodeWrapper) : Quad :=
  if p.lat ≥ midLat then
    if p.lon ≥ midLon then Quad.NE else Quad.NW
  else
    if p.lon ≥ midLon then Quad.SE else Quad.SW

/-- The multiset of all points stored in a tree. -/
def pointsOf : QTNode → Multiset OsmNodeWrapper
  | QTNode.leaf _ _ _ _ _ ms => (ms : Multiset OsmNodeWrapper)
  | QTNode.node _ _ _ _ _ ll lr ul ur =>
    pointsOf ll + pointsOf lr + pointsOf ul + pointsOf ur

/-- The multiset of all points stored in four children. -/
def points4 (cs : Children) : Multiset OsmNodeWrapper :=
  pointsOf cs.1 + pointsOf cs.2.1 + pointsOf cs.2.2.1 + pointsOf cs.2.2.2

/-- Every node of the tree has a nonnegative capacity. -/
def capsB : QTNode → Bool
  | QTNode.leaf _ _ _ _ m _ => decide (0 ≤ m)
  | QTNode.node _ _ _ _ m ll lr ul ur =>
    decide (0 ≤ m) && capsB ll && capsB lr && capsB ul && capsB ur

/-- Every leaf of the tree holds at most its capacity of members. -/
def leavesLE : QTNode → Bool
  | QTNode.leaf _ _ _ _ m ms => decide ((ms.length : ℤ) ≤ m)
  | QTNode.node _ _ _ _ _ ll lr ul ur =>
    leavesLE ll && leavesLE lr && leavesLE ul && leavesLE ur

/-- Structural invariant carried through insertion: nonnegative capacities and
capacity-bounded leaves. -/
def okT (t : QTNode) : Prop := capsB t = true ∧ leavesLE t = true

/-- `okT` for each of four children. -/
def ok4 (cs : Children) : Prop :=
  okT cs.1 ∧ okT cs.2.1 ∧ okT cs.2.2.1 ∧ okT cs.2.2.2

/-- Is the node internal? -/
def isInternal : QTNode → Bool
  | QTNode.leaf _ _ _ _ _ _ => false
  | QTNode.node _ _ _ _ _ _ _ _ _ => true

/-- The child of an internal node in the given quadrant. -/
def childAt : Quad → QTNode → Option QTNode
  | _, QTNode.leaf _ _ _ _ _ _ => none
  | .SW, QTNode.node _ _ _ _ _ ll _ _ _ => some ll
  | .SE, QTNode.node _ _ _ _ _ _ lr _ _ => some lr
  | .NW, QTNode.node _ _ _ _ _ _ _ ul _ => some ul
  | .NE, QTNode.node _ _ _ _ _ _ _ _ ur => some ur

/-- The members of a leaf. -/
def leafMembers : QTNode → Option (List OsmNodeWrapper)
  | QTNode.leaf _ _ _ _ _ ms => some ms
  | QTNode.node _ _ _ _ _ _ _ _ _ => none

/-- Projection of a `Children` tuple by quadrant. -/
def childProj : Quad → Children → QTNode
  | .SW, cs => cs.1
  | .SE, cs => cs.2.1
  | .NW, cs => cs.2.2.1
  | .NE, cs => cs.2.2.2

/-- Membership in a closed rectangle (the bounds stored by a node). -/
def inRect (p : OsmNodeWrapper) (a b c d : ℚ) : Prop :=
  a ≤ p.lat ∧ p.lat ≤ b ∧ c ≤ p.lon ∧ p.lon ≤ d

/-- Modelled from the spec: the region a quadrant child is responsible for
under the greater-or-equal convention — midpoint boundaries belong to the
upper / right child, so the lower / left regions are half-open. -/
def inRegion (a b c d : ℚ) (q : Quad) (p : OsmNodeWrapper) : Prop :=
  match q with
  | .SW => a ≤ p.lat ∧ p.lat < (a + b) / 2 ∧ c ≤ p.lon ∧ p.lon < (c + d) / 2
  | .SE => a ≤ p.lat ∧ p.lat < (a + b) / 2 ∧ (c + d) / 2 ≤ p.lon ∧ p.lon ≤ d
  | .NW => (a + b) / 2 ≤ p.lat ∧ p.lat ≤ b ∧ c ≤ p.lon ∧ p.lon < (c + d) / 2
  | .NE => (a + b) / 2 ≤ p.lat ∧ p.lat ≤ b ∧ (c + d) / 2 ≤ p.lon ∧ p.lon ≤ d

/-- Scenario point (10, 10) of §8 of the spec. -/
def pNE1 : OsmNodeWrapper := ⟨10, 10, 1⟩

/-- Scenario point (20, 20) of §8 of the spec. -/
def pNE2 : OsmNodeWrapper := ⟨20, 20, 2⟩

/-- Scenario point (-10, -10) of §8 of the spec. -/
def pSW3 : OsmNodeWrapper := ⟨-10, -10, 3⟩

/-- The coincident point (0, 0) of the degenerate-split scenario. -/
def pOrigin : OsmNodeWrapper := ⟨0, 0, 0⟩

/-- The tree produced by the three-point scenario: one split at the root,
(10,10) and (20,20) in the NE child, (-10,-10) in the SW child. -/
def scenarioTree : QTNode :=
  QTNode.node (-90) 90 (-180) 180 2
    (QTNode.leaf (-90) 0 (-180) 0 2 [pSW3])
    (QTNode.leaf (-90) 0 0 180 2 [])
    (QTNode.leaf 0 90 (-180) 0 2 [])
    (QTNode.leaf 0 90 0 180 2 [pNE1, pNE2])

/-! ### Concrete evaluation of the three-point scenario -/

set_option maxHeartbeats 1000000 in
/-- Evaluating the three scenario insertions: the third insertion splits the
root, leaving (10,10) and (20,20) in the NE child and (-10,-10) in SW. -/
lemma scenario_eval : addAllF 9 (QTNode.mkFresh (-90) 90 (-180) 180 2) [pNE1, pNE2, pSW3]
    = some scenarioTree := by
  simp only [addAllF, List.foldlM, QTNode.mkFresh]
  iterate 14
    first
    | (norm_num [pNE1, pNE2, pSW3, scenarioTree])
    | skip
    first
    | (simp only [addF]; try norm_num [pNE1, pNE2, pSW3])
    | skip
    first
    | (simp only [splitWith, redistWith, add2With]; try norm_num [pNE1, pNE2, pSW3])
    | skip
  exact ⟨_, _, _, _, ⟨rfl, rfl, rfl, rfl⟩, rfl, rfl, rfl, rfl⟩

set_option maxHeartbeats 1000000 in
/-- Evaluating the first two scenario insertions: no split occurs. -/
lemma scenario_eval2 : addAllF 9 (QTNode.mkFresh (-90) 90 (-180) 180 2) [pNE1, pNE2]
    = some (QTNode.leaf (-90) 90 (-180) 180 2 [pNE1, pNE2]) := by
  simp only [addAllF, List.foldlM, QTNode.mkFresh]
  iterate 4
    first
    | (simp only [addF]; try norm_num [pNE1, pNE2, pSW3])
    | skip

/-- Enumerating the scenario tree: the SW leaf (one point) comes before the
NE leaf (two points); the two empty leaves are skipped. -/
lemma scenario_write : writeLeaves scenarioTree "root"
    = [("rootSW", [pSW3]), ("rootNE", [pNE1, pNE2])] := by
  simp only [writeLeaves, scenarioTree, pSW3, pNE1, pNE2]
  norm_num [show "root" ++ "SW" = "rootSW" from rfl, show "root" ++ "NE" = "rootNE" from rfl]
  exact List.cons_ne_nil _ _

/-! ### Conservation of points -/

/-- Adding through `add_2_child` adds the point, as a multiset, to the four
children, provided the abstracted child insertion does so. -/
lemma add2With_points (addC : QTNode → OsmNodeWrapper → Option QTNode)
    (H : ∀ t p t', addC t p = some t' → pointsOf t' = p ::ₘ pointsOf t)
    (ml ml' : ℚ) (ll lr ul ur : QTNode) (p : OsmNodeWrapper) (cs' : Children)
    (h : add2With addC ml ml' ll lr ul ur p = some cs') :
    points4 cs' = p ::ₘ points4 (ll, lr, ul, ur) := by
  unfold add2With at h
  split at h <;> split at h <;>
    (obtain ⟨x, hx, rfl⟩ := Option.map_eq_some'.mp h;
     simp [points4, pointsOf, H _ _ _ hx, Multiset.add_cons, Multiset.cons_add])

/-- The redistribution loop of `split` adds exactly the redistributed points
to the four children. -/
lemma redistWith_points (addC : QTNode → OsmNodeWrapper → Option QTNode)
    (H : ∀ t p t', addC t p = some t' → pointsOf t' = p ::ₘ pointsOf t) :
    ∀ (ps : List OsmNodeWrapper) (ml ml' : ℚ) (cs cs' : Children),
      redistWith addC ml ml' ps cs = some cs' →
      points4 cs' = (ps : Multiset OsmNodeWrapper) + points4 cs := by
  intro ps
  induction ps with
  | nil =>
    intro ml ml' cs cs' h
    simp only [redistWith, Option.some_inj] at h
    simp [← h]
  | cons p rest ih =>
    intro ml ml' cs cs' h
    simp only [redistWith] at h
    cases hstep : add2With addC ml ml' cs.1 cs.2.1 cs.2.2.1 cs.2.2.2 p with
    | none => rw [hstep] at h; cases h
    | some cs2 =>
      rw [hstep] at h
      have h1 : points4 cs2 = p ::ₘ points4 cs :=
        add2With_points addC H ml ml' cs.1 cs.2.1 cs.2.2.1 cs.2.2.2 p cs2 hstep
      have h2 := ih ml ml' cs2 cs' h
      rw [h2, h1]
      simp [← Multiset.cons_coe, Multiset.add_cons, Multiset.cons_add]

/-- `split` preserves the multiset of stored points. -/
lemma splitWith_points (addC : QTNode → OsmNodeWrapper → Option QTNode)
    (H : ∀ t p t', addC t p = some t' → pointsOf t' = p ::ₘ pointsOf t)
    (a b c d : ℚ) (m : ℤ) (ms : List OsmNodeWrapper) (t' : QTNode)
    (h : splitWith addC a b c d m ms = some t') :
    pointsOf t' = (ms : Multiset OsmNodeWrapper) := by
  unfold splitWith at h
  obtain ⟨cs, hcs, rfl⟩ := Option.map_eq_some'.mp h
  have := redistWith_points addC H ms _ _ _ cs hcs
  simp [points4, pointsOf] at this
  simp [pointsOf, points4, this]

/-- `add` adds exactly the inserted point to the tree's multiset of points:
nothing is lost, nothing is duplicated. -/
lemma addF_points : ∀ (n : ℕ) (t : QTNode) (p : OsmNodeWrapper) (t' : QTNode),
    addF n t p = some t' → pointsOf t' = p ::ₘ pointsOf t := by
  intro n
  induction n with
  | zero => intro t p t' h; cases h
  | succ n ih =>
    intro t p t' h
    cases t with
    | leaf a b c d m ms =>
      simp only [addF] at h
      split at h
      · have := splitWith_points (addF n) ih a b c d m (ms ++ [p]) t' h
        simp only [pointsOf, this]
        simp [← Multiset.coe_add, ← Multiset.cons_coe, ← Multiset.cons_zero,
          Multiset.add_cons, Multiset.cons_add]
      · obtain rfl := Option.some_inj.mp h
        simp [pointsOf, ← Multiset.coe_add, ← Multiset.cons_coe, ← Multiset.cons_zero,
          Multiset.add_cons, Multiset.cons_add]
    | node a b c d m ll lr ul ur =>
      simp only [addF] at h
      obtain ⟨cs, hcs, rfl⟩ := Option.map_eq_some'.mp h
      have := add2With_points (addF n) ih _ _ ll lr ul ur p cs hcs
      simpa [pointsOf, points4] using this

/-- The insertion loop adds exactly the input points to the tree's multiset. -/
lemma addAllF_points : ∀ (ps : List OsmNodeWrapper) (fuel : ℕ) (t t' : QTNode),
    addAllF fuel t ps = some t' →
    pointsOf t' = (ps : Multiset OsmNodeWrapper) + pointsOf t := by
  intro ps
  induction ps with
  | nil =>
    intro fuel t t' h
    simp only [addAllF, List.foldlM] at h
    obtain rfl := Option.some_inj.mp h
    exact (zero_add _).symm
  | cons p rest ih =>
    intro fuel t t' h
    simp only [addAllF, List.foldlM] at h
    cases hstep : addF fuel t p with
    | none => rw [hstep] at h; cases h
    | some t1 =>
      rw [hstep] at h
      have h2 := ih fuel t1 t' h
      rw [h2, addF_points fuel t p t1 hstep]
      simp [← Multiset.cons_coe, Multiset.add_cons, Multiset.cons_add]

/-- The points listed by `write_leaves` are exactly the points stored in the
tree (empty leaves hold no points, so skipping them loses nothing). -/
lemma writeLeaves_points : ∀ (t : QTNode) (s : String),
    ((((writeLeaves t s).map Prod.snd).flatten : List OsmNodeWrapper) : Multiset OsmNodeWrapper)
      = pointsOf t := by
  intro t
  induction t with
  | leaf a b c d m ms =>
    intro s
    by_cases hms : ms = [] <;> simp [writeLeaves, hms, pointsOf]
  | node a b c d m ll lr ul ur ih1 ih2 ih3 ih4 =>
    intro s
    simp [writeLeaves, pointsOf, ← ih1 (s ++ "SW"), ← ih2 (s ++ "SE"),
      ← ih3 (s ++ "NW"), ← ih4 (s ++ "NE"), ← Multiset.coe_add, add_assoc]

/-- C1: for every finite input sequence of N point records inserted into a
freshly constructed root (via `add`), the total number of point records
across all leaves produced by `write_leaves` equals N, and in fact the
multiset of enumerated points equals the multiset of inserted points — no
point is lost or duplicated by insertion, splitting, or enumeration. -/
theorem conservation_of_points (a b c d : ℚ) (m : ℤ) (ps : List OsmNodeWrapper)
    (fuel : ℕ) (t' : QTNode) (s : String)
    (h : addAllF fuel (QTNode.mkFresh a b c d m) ps = some t') :
    (((writeLeaves t' s).map Prod.snd).flatten).length = ps.length
    ∧ ((((writeLeaves t' s).map Prod.snd).flatten : List OsmNodeWrapper) : Multiset OsmNodeWrapper)
        = (ps : Multiset OsmNodeWrapper) := by
  have hpts : pointsOf t' = (ps : Multiset OsmNodeWrapper) := by
    have h1 := addAllF_points ps fuel _ t' h
    simpa [QTNode.mkFresh, pointsOf] using h1
  have hjoin := (writeLeaves_points t' s).trans hpts
  refine ⟨?_, hjoin⟩
  have hcard := congrArg Multiset.card hjoin
  simpa using hcard

/-- Witness for C1 at the three-point scenario. -/
theorem conservation_of_points_witness :
    (((writeLeaves scenarioTree "root").map Prod.snd).flatten).length = 3
    ∧ ((((writeLeaves scenarioTree "root").map Prod.snd).flatten : List OsmNodeWrapper) : Multiset OsmNodeWrapper)
        = ([pNE1, pNE2, pSW3] : Multiset OsmNodeWrapper) := by
  have h := conservation_of_points (-90) 90 (-180) 180 2 [pNE1, pNE2, pSW3] 9
    scenarioTree "root" scenario_eval
  simpa using h

/-! ### The capacity bound -/

/-- Unfolding `okT` on a leaf. -/
lemma okT_leaf_iff (a b c d : ℚ) (m : ℤ) (ms : List OsmNodeWrapper) :
    okT (QTNode.leaf a b c d m ms) ↔ 0 ≤ m ∧ (ms.length : ℤ) ≤ m := by
  simp [okT, capsB, leavesLE]

/-- Unfolding `okT` on an internal node. -/
lemma okT_node_iff (a b c d : ℚ) (m : ℤ) (ll lr ul ur : QTNode) :
    okT (QTNode.node a b c d m ll lr ul ur) ↔
      0 ≤ m ∧ okT ll ∧ okT lr ∧ okT ul ∧ okT ur := by
  simp only [okT, capsB, leavesLE, Bool.and_eq_true, decide_eq_true_eq]
  tauto

/-- `add_2_child` preserves the capacity invariant of the four children,
provided the abstracted child insertion preserves it. -/
lemma add2With_ok (addC : QTNode → OsmNodeWrapper → Option QTNode)
    (H : ∀ t p t', addC t p = some t' → okT t → okT t')
    (ml ml' : ℚ) (ll lr ul ur : QTNode) (p : OsmNodeWrapper) (cs' : Children)
    (h : add2With addC ml ml' ll lr ul ur p = some cs')
    (h4 : ok4 (ll, lr, ul, ur)) : ok4 cs' := by
  obtain ⟨hll, hlr, hul, hur⟩ := h4
  unfold add2With at h
  split at h <;> split at h <;> obtain ⟨x, hx, rfl⟩ := Option.map_eq_some'.mp h
  · exact ⟨hll, hlr, hul, H _ _ _ hx hur⟩
  · exact ⟨hll, hlr, H _ _ _ hx hul, hur⟩
  · exact ⟨hll, H _ _ _ hx hlr, hul, hur⟩
  · exact ⟨H _ _ _ hx hll, hlr, hul, hur⟩

/-- The redistribution loop preserves the capacity invariant of the four
children. -/
lemma redistWith_ok (addC : QTNode → OsmNodeWrapper → Option QTNode)
    (H : ∀ t p t', addC t p = some t' → okT t → okT t') :
    ∀ (ps : List OsmNodeWrapper) (ml ml' : ℚ) (cs cs' : Children),
      redistWith addC ml ml' ps cs = some cs' → ok4 cs → ok4 cs' := by
  intro ps
  induction ps with
  | nil =>
    intro ml ml' cs cs' h h4
    simp only [redistWith, Option.some_inj] at h
    exact h ▸ h4
  | cons p rest ih =>
    intro ml ml' cs cs' h h4
    simp only [redistWith] at h
    cases hstep : add2With addC ml ml' cs.1 cs.2.1 cs.2.2.1 cs.2.2.2 p with
    | none => rw [hstep] at h; cases h
    | some cs2 =>
      rw [hstep] at h
      exact ih ml ml' cs2 cs' h
        (add2With_ok addC H ml ml' cs.1 cs.2.1 cs.2.2.1 cs.2.2.2 p cs2 hstep h4)

/-- A successful `split` with nonnegative capacity produces a tree whose
leaves all satisfy the capacity bound. -/
lemma splitWith_ok (addC : QTNode → OsmNodeWrapper → Option QTNode)
    (H : ∀ t p t', addC t p = some t' → okT t → okT t')
    (a b c d : ℚ) (m : ℤ) (ms : List OsmNodeWrapper) (t' : QTNode)
    (hm : 0 ≤ m) (h : splitWith addC a b c d m ms = some t') : okT t' := by
  unfold splitWith at h
  obtain ⟨cs, hcs, rfl⟩ := Option.map_eq_some'.mp h
  have hinit : ∀ x y z w : ℚ, okT (QTNode.leaf x y z w m []) := by
    intro x y z w
    simp [okT_leaf_iff, hm]
  have h4 : ok4 cs := redistWith_ok addC H ms _ _ _ cs hcs
    ⟨hinit _ _ _ _, hinit _ _ _ _, hinit _ _ _ _, hinit _ _ _ _⟩
  obtain ⟨h1, h2, h3, h4'⟩ := h4
  exact (okT_node_iff _ _ _ _ _ _ _ _ _).mpr ⟨hm, h1, h2, h3, h4'⟩

/-- `add` preserves the capacity invariant: if every leaf is within capacity
before the call, every leaf is within capacity when it returns. -/
lemma addF_ok : ∀ (n : ℕ) (t : QTNode) (p : OsmNodeWrapper) (t' : QTNode),
    addF n t p = some t' → okT t → okT t' := by
  intro n
  induction n with
  | zero => intro t p t' h; cases h
  | succ n ih =>
    intro t p t' h ht
    cases t with
    | leaf a b c d m ms =>
      obtain ⟨hm, _⟩ := (okT_leaf_iff _ _ _ _ _ _).mp ht
      simp only [addF] at h
      split at h
      · exact splitWith_ok (addF n) ih a b c d m (ms ++ [p]) t' hm h
      · obtain rfl := Option.some_inj.mp h
        rename_i hcond
        exact (okT_leaf_iff _ _ _ _ _ _).mpr ⟨hm, not_lt.mp hcond⟩
    | node a b c d m ll lr ul ur =>
      obtain ⟨hm, h1, h2, h3, h4⟩ := (okT_node_iff _ _ _ _ _ _ _ _ _).mp ht
      simp only [addF] at h
      obtain ⟨cs, hcs, rfl⟩ := Option.map_eq_some'.mp h
      have hok := add2With_ok (addF n) ih _ _ ll lr ul ur p cs hcs ⟨h1, h2, h3, h4⟩
      obtain ⟨k1, k2, k3, k4⟩ := hok
      exact (okT_node_iff _ _ _ _ _ _ _ _ _).mpr ⟨hm, k1, k2, k3, k4⟩

/-- The insertion loop preserves the capacity invariant. -/
lemma addAllF_ok : ∀ (ps : List OsmNodeWrapper) (fuel : ℕ) (t t' : QTNode),
    addAllF fuel t ps = some t' → okT t → okT t' := by
  intro ps
  induction ps with
  | nil =>
    intro fuel t t' h ht
    simp only [addAllF, List.foldlM] at h
    obtain rfl := Option.some_inj.mp h
    exact ht
  | cons p rest ih =>
    intro fuel t t' h ht
    simp only [addAllF, List.foldlM] at h
    cases hstep : addF fuel t p with
    | none => rw [hstep] at h; cases h
    | some t1 =>
      rw [hstep] at h
      exact ih fuel t1 t' h (addF_ok fuel t p t1 hstep ht)

/-- C2: for every sequence of insertions on which insertion terminates,
starting from a freshly constructed root with positive capacity, every leaf
reachable from the root holds at most `max_members` members once the
insertions return.  (Inside a single `add` call the appended member list of
length `capacity + 1` is passed to `split`, which rebuilds the node before
the call returns — the transient excess never survives a completed call,
and since every prefix of the input is itself such a sequence, the bound
holds after each individual `add` as well.) -/
theorem capacity_bound (a b c d : ℚ) (m : ℤ) (hm : 0 < m)
    (ps : List OsmNodeWrapper) (fuel : ℕ) (t' : QTNode)
    (h : addAllF fuel (QTNode.mkFresh a b c d m) ps = some t') :
    leavesLE t' = true := by
  have h0 : okT (QTNode.mkFresh a b c d m) := by
    simp [QTNode.mkFresh, okT_leaf_iff, hm.le]
  exact (addAllF_ok ps fuel _ t' h h0).2

/-- Witness for C2 at the three-point scenario. -/
theorem capacity_bound_witness : leavesLE scenarioTree = true :=
  capacity_bound (-90) 90 (-180) 180 2 (by norm_num) [pNE1, pNE2, pSW3] 9
    scenarioTree scenario_eval

/-! ### Degenerate splitting: no depth guard exists -/

/-- With capacity 1, adding a point on top of a coincident stored point never
terminates: both points are routed to the same child at every level, that
child immediately exceeds capacity again, and no maximum-depth guard exists
to stop the descent — with any fuel the insertion fails to complete. -/
lemma coincident_diverges : ∀ (n : ℕ) (a b c d : ℚ) (p q : OsmNodeWrapper),
    q.lat = p.lat → q.lon = p.lon →
    addF n (QTNode.leaf a b c d 1 [q]) p = none := by
  intro n
  induction n with
  | zero => intro a b c d p q _ _; rfl
  | succ n ih =>
    intro a b c d p q hlat hlon
    simp only [addF]
    rw [if_pos (by norm_num : (((([q] : List OsmNodeWrapper) ++ [p]).length : ℤ) > 1))]
    cases n with
    | zero =>
      simp [splitWith, redistWith, add2With, addF]
    | succ k =>
      have hstep1 : ∀ x y z w : ℚ,
          addF (k + 1) (QTNode.leaf x y z w 1 []) q
            = some (QTNode.leaf x y z w 1 [q]) := by
        intro x y z w
        simp only [addF]
        rw [if_neg (by norm_num : ¬(((([] : List OsmNodeWrapper) ++ [q]).length : ℤ) > 1))]
        simp
      have hstep2 : ∀ x y z w : ℚ,
          addF (k + 1) (QTNode.leaf x y z w 1 [q]) p = none :=
        fun x y z w => ih x y z w p q hlat hlon
      by_cases h1 : q.lat ≥ (b + a) / 2 <;> by_cases h2 : q.lon ≥ (d + c) / 2 <;>
        simp [splitWith, redistWith, add2With, ← hlat, ← hlon, h1, h2, hstep1, hstep2]

/-- With nonpositive capacity, any insertion into an empty leaf never
terminates: the single point immediately exceeds capacity, is redistributed
alone into an empty child, and the splitting descends forever. -/
lemma nonpos_diverges : ∀ (n : ℕ) (a b c d : ℚ) (m : ℤ), m ≤ 0 →
    ∀ p : OsmNodeWrapper, addF n (QTNode.leaf a b c d m []) p = none := by
  intro n
  induction n with
  | zero => intro a b c d m _ p; rfl
  | succ n ih =>
    intro a b c d m hm p
    simp only [addF]
    rw [if_pos (show ((([] : List OsmNodeWrapper) ++ [p]).length : ℤ) > m by
      simp; omega)]
    have hstep : ∀ x y z w : ℚ, addF n (QTNode.leaf x y z w m []) p = none :=
      fun x y z w => ih x y z w m hm p
    by_cases h1 : p.lat ≥ (b + a) / 2 <;> by_cases h2 : p.lon ≥ (d + c) / 2 <;>
      simp [splitWith, redistWith, add2With, h1, h2, hstep]

/-- Termination of the insertion loop in the fuel model: insertion of the
sequence completes within some recursion budget.  A run of the source
terminates exactly when this holds. -/
def addAllTerminates (t : QTNode) (ps : List OsmNodeWrapper) : Prop :=
  ∃ (fuel : ℕ) (t' : QTNode), addAllF fuel t ps = some t'

/-- In the degenerate scenario — capacity 1, five insertions of the identical
point (0,0) into the root (-90,90,-180,180) — every recursion budget is
insufficient. -/
lemma scenario_coincident_all_fuel_none : ∀ fuel : ℕ,
    addAllF fuel (QTNode.mkFresh (-90) 90 (-180) 180 1)
      [pOrigin, pOrigin, pOrigin, pOrigin, pOrigin] = none := by
  intro fuel
  cases fuel with
  | zero => rfl
  | succ n =>
    have h1 : addF (n + 1) (QTNode.mkFresh (-90) 90 (-180) 180 1) pOrigin
        = some (QTNode.leaf (-90) 90 (-180) 180 1 [pOrigin]) := by
      simp only [QTNode.mkFresh, addF]
      rw [if_neg (by norm_num :
        ¬((([] : List OsmNodeWrapper) ++ [pOrigin]).length : ℤ) > 1)]
      simp
    have h2 : addF (n + 1) (QTNode.leaf (-90) 90 (-180) 180 1 [pOrigin]) pOrigin = none :=
      coincident_diverges (n + 1) (-90) 90 (-180) 180 pOrigin pOrigin rfl rfl
    simp [addAllF, List.foldlM, h1, h2]

/-- C3, counterexample: in the degenerate scenario — capacity 1, five
insertions of the identical point (0,0) into the root (-90,90,-180,180) —
insertion does NOT terminate: no recursion budget lets the run complete (the
source has no maximum-depth guard; in Python the recursion overflows).  This
refutes the claim that a maximum-depth guard stops the splitting with bounded
recursion depth. -/
theorem degenerate_split_counterexample :
    ¬ addAllTerminates (QTNode.mkFresh (-90) 90 (-180) 180 1)
        [pOrigin, pOrigin, pOrigin, pOrigin, pOrigin] := by
  rintro ⟨fuel, t', h⟩
  rw [scenario_coincident_all_fuel_none fuel] at h
  cases h

/-- C3, amended: the source has no maximum-depth guard and does not terminate
on the degenerate input.  With capacity 1, inserting a point into a leaf that
already stores one coincident point recurses past every fuel bound, for every
rectangle: the insertion never completes (in Python: unbounded recursion
ending in `RecursionError`), instead of stopping at a depth guard. -/
theorem degenerate_split_no_guard (fuel : ℕ) (a b c d : ℚ) (p : OsmNodeWrapper) :
    addF fuel (QTNode.leaf a b c d 1 [p]) p = none :=
  coincident_diverges fuel a b c d p p rfl rfl

/-- C4, counterexample: constructing the root with capacity 0 is NOT rejected
— `__init__` performs no validation and yields an ordinary empty leaf, and
the error instead manifests later as unbounded splitting (here: at fuel 25;
`invalid_capacity_manifests` shows it for every fuel). -/
theorem invalid_capacity_counterexample :
    QTNode.mkFresh (-90) 90 (-180) 180 0 = QTNode.leaf (-90) 90 (-180) 180 0 []
    ∧ addF 25 (QTNode.mkFresh (-90) 90 (-180) 180 0) pOrigin = none :=
  ⟨rfl, nonpos_diverges 25 (-90) 90 (-180) 180 0 le_rfl pOrigin⟩

/-- C4, amended: construction with nonpositive capacity is accepted without
any check — the constructor returns an ordinary empty leaf — and the
degenerate capacity manifests later as unbounded splitting: the very first
insertion never terminates, for every fuel bound. -/
theorem invalid_capacity_manifests (m : ℤ) (hm : m ≤ 0) (fuel : ℕ)
    (a b c d : ℚ) (p : OsmNodeWrapper) :
    QTNode.mkFresh a b c d m = QTNode.leaf a b c d m []
    ∧ addF fuel (QTNode.mkFresh a b c d m) p = none :=
  ⟨rfl, nonpos_diverges fuel a b c d m hm p⟩

/-- Witness for the amended C4 at capacity -1, fuel 30. -/
theorem invalid_capacity_manifests_witness :
    QTNode.mkFresh 0 1 0 1 (-1) = QTNode.leaf 0 1 0 1 (-1) []
    ∧ addF 30 (QTNode.mkFresh 0 1 0 1 (-1)) pOrigin = none :=
  invalid_capacity_manifests (-1) (by norm_num) 30 0 1 0 1 pOrigin

/-- C5: the routing rule and its consistency.  (1) `add_2_child` routes a
point to the upper half exactly when `lat ≥ midLat` and to the right half
exactly when `lon ≥ midLon` — i.e. it updates precisely the child selected by
the spec's routing rule `routeSpec`, leaving the other three unchanged.
(2) Internal-node delegation in `add` invokes exactly this `add_2_child`.
(3) Split-time redistribution processes each buffered member through exactly
this `add_2_child`.  (4) `split` routes its members through that
redistribution.  Hence the identical rule is applied in both code paths, and
a point reaches the same leaf via either path. -/
theorem routing_rule_consistent :
    (∀ (addC : QTNode → OsmNodeWrapper → Option QTNode) (midLat midLon : ℚ)
        (ll lr ul ur : QTNode) (p : OsmNodeWrapper),
      add2With addC midLat midLon ll lr ul ur p =
        match routeSpec midLat midLon p with
        | Quad.NE => (addC ur p).map (fun x => (ll, lr, ul, x))
        | Quad.NW => (addC ul p).map (fun x => (ll, lr, x, ur))
        | Quad.SE => (addC lr p).map (fun x => (ll, x, ul, ur))
        | Quad.SW => (addC ll p).map (fun x => (x, lr, ul, ur)))
    ∧ (∀ (n : ℕ) (a b c d : ℚ) (m : ℤ) (ll lr ul ur : QTNode) (p : OsmNodeWrapper),
      addF (n + 1) (QTNode.node a b c d m ll lr ul ur) p =
        (add2With (addF n) ((b + a) / 2) ((d + c) / 2) ll lr ul ur p).map
          (fun cs => QTNode.node a b c d m cs.1 cs.2.1 cs.2.2.1 cs.2.2.2))
    ∧ (∀ (addC : QTNode → OsmNodeWrapper → Option QTNode) (midLat midLon : ℚ)
        (p : OsmNodeWrapper) (ps : List OsmNodeWrapper) (cs : Children),
      redistWith addC midLat midLon (p :: ps) cs =
        match add2With addC midLat midLon cs.1 cs.2.1 cs.2.2.1 cs.2.2.2 p with
        | none => none
        | some cs2 => redistWith addC midLat midLon ps cs2)
    ∧ (∀ (addC : QTNode → OsmNodeWrapper → Option QTNode) (a b c d : ℚ)
        (m : ℤ) (ms : List OsmNodeWrapper),
      splitWith addC a b c d m ms =
        (redistWith addC ((b + a) / 2) ((d + c) / 2) ms
            (QTNode.leaf a ((b + a) / 2) c ((c + d) / 2) m [],
             QTNode.leaf a ((b + a) / 2) ((c + d) / 2) d m [],
             QTNode.leaf ((a + b) / 2) b c ((c + d) / 2) m [],
             QTNode.leaf ((a + b) / 2) b ((c + d) / 2) d m [])).map
          (fun cs => QTNode.node a b c d m cs.1 cs.2.1 cs.2.2.1 cs.2.2.2)) := by
  refine ⟨?_, fun n a b c d m ll lr ul ur p => rfl,
    fun addC midLat midLon p ps cs => rfl, fun addC a b c d m ms => rfl⟩
  intro addC midLat midLon ll lr ul ur p
  unfold add2With routeSpec
  by_cases h1 : p.lat ≥ midLat <;> by_cases h2 : p.lon ≥ midLon <;> simp [h1, h2]

/-! ### Enumeration order and path identifiers -/

/-- The accumulated path prefix distributes over the enumeration. -/
lemma enumLeaves_shift : ∀ (t : QTNode) (qs : List Quad),
    enumLeaves t qs = (enumLeaves t []).map (fun e => (qs ++ e.1, e.2)) := by
  intro t
  induction t with
  | leaf a b c d m ms =>
    intro qs
    by_cases h : ms = [] <;> simp [enumLeaves, h]
  | node a b c d m ll lr ul ur ih1 ih2 ih3 ih4 =>
    intro qs
    simp only [enumLeaves, List.map_append, List.nil_append]
    rw [ih1 (qs ++ [Quad.SW]), ih2 (qs ++ [Quad.SE]), ih3 (qs ++ [Quad.NW]),
      ih4 (qs ++ [Quad.NE]), ih1 [Quad.SW], ih2 [Quad.SE], ih3 [Quad.NW], ih4 [Quad.NE]]
    simp [List.map_map, Function.comp_def, List.append_assoc]

/-- The emitted file names refine the abstract quadrant paths: `write_leaves`
called with a name prefix emits, in the same order, exactly the leaves that
abstract enumeration yields, each name being the prefix followed by the
concatenated directional codes of the leaf's path. -/
lemma writeLeaves_eq_enum : ∀ (t : QTNode) (pre : String),
    writeLeaves t pre = (enumLeaves t []).map (fun e => (pre ++ pathCode e.1, e.2)) := by
  intro t
  induction t with
  | leaf a b c d m ms =>
    intro pre
    by_cases h : ms = [] <;> simp [writeLeaves, enumLeaves, h, pathCode]
  | node a b c d m ll lr ul ur ih1 ih2 ih3 ih4 =>
    intro pre
    simp only [writeLeaves, enumLeaves, List.nil_append]
    rw [ih1 (pre ++ "SW"), ih2 (pre ++ "SE"), ih3 (pre ++ "NW"), ih4 (pre ++ "NE"),
      enumLeaves_shift ll [Quad.SW], enumLeaves_shift lr [Quad.SE],
      enumLeaves_shift ul [Quad.NW], enumLeaves_shift ur [Quad.NE]]
    simp [List.map_map, Function.comp_def, pathCode, quadCode, String.append_assoc]

/-- C6: leaf enumeration visits the children of every internal node in the
fixed order SW, SE, NW, NE; each emitted leaf's identifier is the name prefix
followed by the concatenated codes of the ordered quadrant choices from the
root to the leaf; a root that is still a leaf is emitted with the empty path
(bare prefix); and leaves with zero members are skipped. -/
theorem enumeration_order_and_paths :
    (∀ (t : QTNode) (pre : String),
      writeLeaves t pre = (enumLeaves t []).map (fun e => (pre ++ pathCode e.1, e.2)))
    ∧ (∀ (a b c d : ℚ) (m : ℤ) (ll lr ul ur : QTNode) (name : String),
      writeLeaves (QTNode.node a b c d m ll lr ul ur) name =
        writeLeaves ll (name ++ "SW") ++ writeLeaves lr (name ++ "SE") ++
          writeLeaves ul (name ++ "NW") ++ writeLeaves ur (name ++ "NE"))
    ∧ (∀ (a b c d : ℚ) (m : ℤ) (p : OsmNodeWrapper) (ms : List OsmNodeWrapper),
      enumLeaves (QTNode.leaf a b c d m (p :: ms)) [] = [([], p :: ms)])
    ∧ (∀ (a b c d : ℚ) (m : ℤ) (name : String),
      writeLeaves (QTNode.leaf a b c d m []) name = []
      ∧ enumLeaves (QTNode.leaf a b c d m []) [] = []) := by
  refine ⟨writeLeaves_eq_enum, fun a b c d m ll lr ul ur name => rfl,
    fun a b c d m p ms => by simp [enumLeaves], fun a b c d m name => ?_⟩
  exact ⟨by simp [writeLeaves], by simp [enumLeaves]⟩

/-- C7: disjoint tiling.  For a parent rectangle `[a,b] × [c,d]` (nonempty on
both axes) and any point `p`: the four greater-or-equal-convention quadrant
regions tile the parent rectangle — `p` lies in the parent iff it lies in
some region (union), no two distinct regions contain `p` (disjointness) —
the region containing `p` is exactly the quadrant the routing rule selects,
each region is contained in the closed child rectangle that `split` creates
for that quadrant, and those four rectangles are the exact midpoint bisection
of the parent on both axes, as `split` constructs them. -/
theorem disjoint_tiling (a b c d : ℚ) (p : OsmNodeWrapper) (hab : a ≤ b) (hcd : c ≤ d) :
    (inRect p a b c d ↔ ∃ q, inRegion a b c d q p)
    ∧ (∀ q r, inRegion a b c d q p → inRegion a b c d r p → q = r)
    ∧ (∀ q, inRegion a b c d q p → routeSpec ((a + b) / 2) ((c + d) / 2) p = q)
    ∧ (∀ q, inRegion a b c d q p →
        match q with
        | Quad.SW => inRect p a ((b + a) / 2) c ((c + d) / 2)
        | Quad.SE => inRect p a ((b + a) / 2) ((c + d) / 2) d
        | Quad.NW => inRect p ((a + b) / 2) b c ((c + d) / 2)
        | Quad.NE => inRect p ((a + b) / 2) b ((c + d) / 2) d)
    ∧ (∀ (addC : QTNode → OsmNodeWrapper → Option QTNode) (m : ℤ)
        (ms : List OsmNodeWrapper),
      splitWith addC a b c d m ms =
        (redistWith addC ((b + a) / 2) ((d + c) / 2) ms
            (QTNode.leaf a ((b + a) / 2) c ((c + d) / 2) m [],
             QTNode.leaf a ((b + a) / 2) ((c + d) / 2) d m [],
             QTNode.leaf ((a + b) / 2) b c ((c + d) / 2) m [],
             QTNode.leaf ((a + b) / 2) b ((c + d) / 2) d m [])).map
          (fun cs => QTNode.node a b c d m cs.1 cs.2.1 cs.2.2.1 cs.2.2.2)) := by
  refine ⟨⟨?_, ?_⟩, ?_, ?_, ?_, fun addC m ms => rfl⟩
  · rintro ⟨h1, h2, h3, h4⟩
    by_cases hlat : (a + b) / 2 ≤ p.lat <;> by_cases hlon : (c + d) / 2 ≤ p.lon
    · exact ⟨Quad.NE, hlat, h2, hlon, h4⟩
    · exact ⟨Quad.NW, hlat, h2, h3, not_le.mp hlon⟩
    · exact ⟨Quad.SE, h1, not_le.mp hlat, hlon, h4⟩
    · exact ⟨Quad.SW, h1, not_le.mp hlat, h3, not_le.mp hlon⟩
  · rintro ⟨q, hq⟩
    cases q <;> simp only [inRegion] at hq <;> obtain ⟨h1, h2, h3, h4⟩ := hq <;>
      exact ⟨by linarith, by linarith, by linarith, by linarith⟩
  · intro q r hq hr
    cases q <;> cases r <;> simp only [inRegion] at hq hr <;>
      first
      | rfl
      | (exfalso
         obtain ⟨q1, q2, q3, q4⟩ := hq
         obtain ⟨r1, r2, r3, r4⟩ := hr
         linarith)
  · intro q hq
    cases q <;> simp only [inRegion] at hq <;> obtain ⟨h1, h2, h3, h4⟩ := hq
    · simp [routeSpec, ge_iff_le, h2.not_le, h4.not_le]
    · simp [routeSpec, ge_iff_le, h2.not_le, h3]
    · simp [routeSpec, ge_iff_le, h1, h4.not_le]
    · simp [routeSpec, ge_iff_le, h1, h3]
  · intro q hq
    cases q <;> simp only [inRegion] at hq <;> obtain ⟨h1, h2, h3, h4⟩ := hq <;>
      exact ⟨by linarith, by linarith, by linarith, by linarith⟩

/-- Witness for C7: the scenario point (10, 10) inside the world rectangle
lies in the NE region, routes to NE, and lies in the closed NE child
rectangle `[0,90] × [0,180]` produced by splitting the root. -/
theorem disjoint_tiling_witness :
    routeSpec (((-90 : ℚ) + 90) / 2) (((-180 : ℚ) + 180) / 2) pNE1 = Quad.NE
    ∧ inRect pNE1 (((-90 : ℚ) + 90) / 2) 90 (((-180 : ℚ) + 180) / 2) 180 := by
  have h := disjoint_tiling (-90) 90 (-180) 180 pNE1 (by norm_num) (by norm_num)
  have hreg : inRegion (-90) 90 (-180) 180 Quad.NE pNE1 := by
    simp only [inRegion, pNE1]
    norm_num
  exact ⟨h.2.2.1 Quad.NE hreg, h.2.2.2.1 Quad.NE hreg⟩

/-- C8: the concrete scenario.  Root rectangle (-90,90,-180,180), capacity 2:
after inserting (10,10) and (20,20) the root is still a leaf (no split);
inserting (-10,-10) as the third point triggers exactly one split, at the
root, producing a depth-one tree whose NE child holds (10,10) and (20,20) and
whose SW child holds (-10,-10) (the other two children are empty);
enumeration emits exactly two leaves, the SW leaf with one point before the
NE leaf with two points. -/
theorem scenario_three_points :
    addAllF 9 (QTNode.mkFresh (-90) 90 (-180) 180 2) [pNE1, pNE2]
        = some (QTNode.leaf (-90) 90 (-180) 180 2 [pNE1, pNE2])
    ∧ addAllF 9 (QTNode.mkFresh (-90) 90 (-180) 180 2) [pNE1, pNE2, pSW3]
        = some scenarioTree
    ∧ writeLeaves scenarioTree "root" = [("rootSW", [pSW3]), ("rootNE", [pNE1, pNE2])] :=
  ⟨scenario_eval2, scenario_eval, scenario_write⟩

/-- C9: leaf enumeration is read-only and idempotent.  In state-passing form
`write_leaves` returns the tree unchanged (no node's state, bounds, children
or member list changes), its output is the pure enumeration, and a second
traversal of the tree left behind by the first yields the identical sequence
of (name, points) units. -/
theorem enumeration_readonly_idempotent : ∀ (t : QTNode) (name : String),
    (writeLeavesSt t name).1 = t
    ∧ (writeLeavesSt t name).2 = writeLeaves t name
    ∧ writeLeavesSt (writeLeavesSt t name).1 name = writeLeavesSt t name := by
  intro t
  induction t with
  | leaf a b c d m ms =>
    intro name
    exact ⟨rfl, rfl, rfl⟩
  | node a b c d m ll lr ul ur ih1 ih2 ih3 ih4 =>
    intro name
    have h1 : (writeLeavesSt (QTNode.node a b c d m ll lr ul ur) name).1
        = QTNode.node a b c d m ll lr ul ur := by
      simp [writeLeavesSt, (ih1 (name ++ "SW")).1, (ih2 (name ++ "SE")).1,
        (ih3 (name ++ "NW")).1, (ih4 (name ++ "NE")).1]
    have h2 : (writeLeavesSt (QTNode.node a b c d m ll lr ul ur) name).2
        = writeLeaves (QTNode.node a b c d m ll lr ul ur) name := by
      simp [writeLeavesSt, writeLeaves, (ih1 (name ++ "SW")).2.1, (ih2 (name ++ "SE")).2.1,
        (ih3 (name ++ "NW")).2.1, (ih4 (name ++ "NE")).2.1]
    exact ⟨h1, h2, by rw [h1]⟩

/-! ### Split preserves the relative order of points -/

/-- A successful `add` on a leaf either appends the point at the end of the
member list (no split) or turns the node into an internal one. -/
lemma addF_leaf_shape (n : ℕ) (a b c d : ℚ) (m : ℤ) (ms : List OsmNodeWrapper)
    (p : OsmNodeWrapper) (t' : QTNode)
    (h : addF n (QTNode.leaf a b c d m ms) p = some t') :
    t' = QTNode.leaf a b c d m (ms ++ [p]) ∨ isInternal t' = true := by
  cases n with
  | zero => cases h
  | succ n =>
    simp only [addF] at h
    split at h
    · unfold splitWith at h
      obtain ⟨cs, _, rfl⟩ := Option.map_eq_some'.mp h
      right; rfl
    · obtain rfl := Option.some_inj.mp h
      left; rfl

/-- A successful `add` on an internal node leaves the node internal. -/
lemma addF_internal_shape (n : ℕ) (t : QTNode) (p : OsmNodeWrapper) (t' : QTNode)
    (hint : isInternal t = true) (h : addF n t p = some t') : isInternal t' = true := by
  cases t with
  | leaf a b c d m ms => simp [isInternal] at hint
  | node a b c d m ll lr ul ur =>
    cases n with
    | zero => cases h
    | succ n =>
      simp only [addF] at h
      obtain ⟨cs, _, rfl⟩ := Option.map_eq_some'.mp h
      rfl

/-- `add_2_child` updates exactly the child selected by the routing rule and
leaves the other three children untouched. -/
lemma add2With_effect (addC : QTNode → OsmNodeWrapper → Option QTNode)
    (ml ml' : ℚ) (cs : Children) (p : OsmNodeWrapper) (cs' : Children)
    (h : add2With addC ml ml' cs.1 cs.2.1 cs.2.2.1 cs.2.2.2 p = some cs') :
    addC (childProj (routeSpec ml ml' p) cs) p
        = some (childProj (routeSpec ml ml' p) cs')
    ∧ ∀ q, q ≠ routeSpec ml ml' p → childProj q cs' = childProj q cs := by
  unfold add2With at h
  by_cases h1 : p.lat ≥ ml <;> by_cases h2 : p.lon ≥ ml'
  · rw [if_pos h1, if_pos h2] at h
    obtain ⟨x, hx, rfl⟩ := Option.map_eq_some'.mp h
    unfold routeSpec
    rw [if_pos h1, if_pos h2]
    refine ⟨hx, fun q hq => ?_⟩
    cases q <;> first | rfl | exact absurd rfl hq
  · rw [if_pos h1, if_neg h2] at h
    obtain ⟨x, hx, rfl⟩ := Option.map_eq_some'.mp h
    unfold routeSpec
    rw [if_pos h1, if_neg h2]
    refine ⟨hx, fun q hq => ?_⟩
    cases q <;> first | rfl | exact absurd rfl hq
  · rw [if_neg h1, if_pos h2] at h
    obtain ⟨x, hx, rfl⟩ := Option.map_eq_some'.mp h
    unfold routeSpec
    rw [if_neg h1, if_pos h2]
    refine ⟨hx, fun q hq => ?_⟩
    cases q <;> first | rfl | exact absurd rfl hq
  · rw [if_neg h1, if_neg h2] at h
    obtain ⟨x, hx, rfl⟩ := Option.map_eq_some'.mp h
    unfold routeSpec
    rw [if_neg h1, if_neg h2]
    refine ⟨hx, fun q hq => ?_⟩
    cases q <;> first | rfl | exact absurd rfl hq

/-- Through the redistribution loop, a child that ends up a leaf received —
appended in order — exactly the points of the processed list that route to
its quadrant. -/
lemma redistWith_filter (addC : QTNode → OsmNodeWrapper → Option QTNode)
    (Hleaf : ∀ (a b c d : ℚ) (m : ℤ) (l : List OsmNodeWrapper) (p : OsmNodeWrapper)
        (t' : QTNode), addC (QTNode.leaf a b c d m l) p = some t' →
        t' = QTNode.leaf a b c d m (l ++ [p]) ∨ isInternal t' = true)
    (Hint : ∀ (t : QTNode) (p : OsmNodeWrapper) (t' : QTNode),
        isInternal t = true → addC t p = some t' → isInternal t' = true) :
    ∀ (ps : List OsmNodeWrapper) (ml ml' : ℚ) (cs cs' : Children),
      redistWith addC ml ml' ps cs = some cs' → ∀ q,
      (∀ (a b c d : ℚ) (m : ℤ) (l : List OsmNodeWrapper),
          childProj q cs = QTNode.leaf a b c d m l →
          childProj q cs' = QTNode.leaf a b c d m
              (l ++ ps.filter (fun x => decide (routeSpec ml ml' x = q)))
            ∨ isInternal (childProj q cs') = true)
      ∧ (isInternal (childProj q cs) = true → isInternal (childProj q cs') = true) := by
  intro ps
  induction ps with
  | nil =>
    intro ml ml' cs cs' h q
    simp only [redistWith, Option.some_inj] at h
    subst h
    exact ⟨fun a b c d m l hl => Or.inl (by simp [hl]), fun hi => hi⟩
  | cons p rest ih =>
    intro ml ml' cs cs' h q
    simp only [redistWith] at h
    cases hstep : add2With addC ml ml' cs.1 cs.2.1 cs.2.2.1 cs.2.2.2 p with
    | none => rw [hstep] at h; cases h
    | some cs2 =>
      rw [hstep] at h
      obtain ⟨heff1, heff2⟩ := add2With_effect addC ml ml' cs p cs2 hstep
      have ihq := ih ml ml' cs2 cs' h q
      by_cases hq : routeSpec ml ml' p = q
      · rw [hq] at heff1
        constructor
        · intro a b c d m l hl
          rw [hl] at heff1
          rcases Hleaf _ _ _ _ _ _ _ _ heff1 with hL | hI
          · rcases ihq.1 a b c d m (l ++ [p]) hL with h1 | h2
            · left
              rw [h1]
              simp [List.filter_cons, hq, List.append_assoc]
            · right; exact h2
          · right; exact ihq.2 hI
        · intro hi
          exact ihq.2 (Hint _ _ _ hi heff1)
      · have hunt : childProj q cs2 = childProj q cs :=
          heff2 q (fun e => hq e.symm)
        constructor
        · intro a b c d m l hl
          rcases ihq.1 a b c d m l (by rw [hunt, hl]) with h1 | h2
          · left
            rw [h1]
            simp [List.filter_cons, hq]
          · right; exact h2
        · intro hi
          exact ihq.2 (by rw [hunt]; exact hi)

/-- C10: split preserves relative order.  When a leaf splits, redistribution
iterates the member list in order, so every child that remains a leaf holds
exactly the subsequence of the parent's member list that routes to its
quadrant (`List.filter` of the parent's list): any two points landing in the
same child keep the relative order they had in the parent's list — and hence,
by induction over the insertions that built that list, their original
relative insertion order. -/
theorem split_preserves_order (n : ℕ) (a b c d : ℚ) (m : ℤ)
    (ms : List OsmNodeWrapper) (t' : QTNode) (q : Quad) (ch : QTNode)
    (l : List OsmNodeWrapper)
    (hs : splitWith (addF n) a b c d m ms = some t')
    (hch : childAt q t' = some ch) (hl : leafMembers ch = some l) :
    l = ms.filter (fun x => decide (routeSpec ((b + a) / 2) ((d + c) / 2) x = q)) := by
  unfold splitWith at hs
  obtain ⟨cs, hcs, rfl⟩ := Option.map_eq_some'.mp hs
  have hfil := redistWith_filter (addF n)
    (fun a b c d m l p t' h => addF_leaf_shape n a b c d m l p t' h)
    (fun t p t' hi h => addF_internal_shape n t p t' hi h)
    ms _ _ _ cs hcs q
  cases q with
  | SW =>
    have hch' : ch = childProj Quad.SW cs := by
      simp only [childAt, Option.some_inj] at hch
      exact hch.symm
    rcases hfil.1 _ _ _ _ _ _ rfl with hL | hI
    · rw [hch', hL] at hl
      simp only [leafMembers, Option.some_inj] at hl
      simpa using hl.symm
    · rw [hch'] at hl
      cases hcp : childProj Quad.SW cs with
      | leaf e1 e2 e3 e4 e5 e6 => rw [hcp] at hI; simp [isInternal] at hI
      | node e1 e2 e3 e4 e5 e6 e7 e8 e9 => rw [hcp] at hl; simp [leafMembers] at hl
  | SE =>
    have hch' : ch = childProj Quad.SE cs := by
      simp only [childAt, Option.some_inj] at hch
      exact hch.symm
    rcases hfil.1 _ _ _ _ _ _ rfl with hL | hI
    · rw [hch', hL] at hl
      simp only [leafMembers, Option.some_inj] at hl
      simpa using hl.symm
    · rw [hch'] at hl
      cases hcp : childProj Quad.SE cs with
      | leaf e1 e2 e3 e4 e5 e6 => rw [hcp] at hI; simp [isInternal] at hI
      | node e1 e2 e3 e4 e5 e6 e7 e8 e9 => rw [hcp] at hl; simp [leafMembers] at hl
  | NW =>
    have hch' : ch = childProj Quad.NW cs := by
      simp only [childAt, Option.some_inj] at hch
      exact hch.symm
    rcases hfil.1 _ _ _ _ _ _ rfl with hL | hI
    · rw [hch', hL] at hl
      simp only [leafMembers, Option.some_inj] at hl
      simpa using hl.symm
    · rw [hch'] at hl
      cases hcp : childProj Quad.NW cs with
      | leaf e1 e2 e3 e4 e5 e6 => rw [hcp] at hI; simp [isInternal] at hI
      | node e1 e2 e3 e4 e5 e6 e7 e8 e9 => rw [hcp] at hl; simp [leafMembers] at hl
  | NE =>
    have hch' : ch = childProj Quad.NE cs := by
      simp only [childAt, Option.some_inj] at hch
      exact hch.symm
    rcases hfil.1 _ _ _ _ _ _ rfl with hL | hI
    · rw [hch', hL] at hl
      simp only [leafMembers, Option.some_inj] at hl
      simpa using hl.symm
    · rw [hch'] at hl
      cases hcp : childProj Quad.NE cs with
      | leaf e1 e2 e3 e4 e5 e6 => rw [hcp] at hI; simp [isInternal] at hI
      | node e1 e2 e3 e4 e5 e6 e7 e8 e9 => rw [hcp] at hl; simp [leafMembers] at hl

set_option maxHeartbeats 1000000 in
/-- Evaluating the scenario split itself: redistributing the three buffered
points from the root produces the scenario tree. -/
lemma scenario_split_eval :
    splitWith (addF 8) (-90) 90 (-180) 180 2 [pNE1, pNE2, pSW3] = some scenarioTree := by
  iterate 14
    first
    | (norm_num [pNE1, pNE2, pSW3, scenarioTree])
    | skip
    first
    | (simp only [addF]; try norm_num [pNE1, pNE2, pSW3])
    | skip
    first
    | (simp only [splitWith, redistWith, add2With]; try norm_num [pNE1, pNE2, pSW3])
    | skip
  exact ⟨_, _, _, _, ⟨rfl, rfl, rfl, rfl⟩, rfl, rfl, rfl, rfl⟩

/-- Witness for C10 at the scenario split: the NE child is a leaf holding
exactly the routed subsequence [(10,10), (20,20)] of the parent's list. -/
theorem split_preserves_order_witness :
    ([pNE1, pNE2] : List OsmNodeWrapper) = [pNE1, pNE2, pSW3].filter
      (fun x => decide (routeSpec ((90 + -90 : ℚ) / 2) ((180 + -180 : ℚ) / 2) x = Quad.NE)) :=
  split_preserves_order 8 (-90) 90 (-180) 180 2 [pNE1, pNE2, pSW3] scenarioTree
    Quad.NE (QTNode.leaf 0 90 0 180 2 [pNE1, pNE2]) [pNE1, pNE2]
    scenario_split_eval rfl rfl
